import Mathlib

/-!
# Verification of `quflow`'s MHD implicit-midpoint integrator

Shallow embedding of `src/quflow/integrators/mhd.py` (`magmp_fixedpoint`),
the fixed-point implicit-midpoint time stepper for the magnetic system
  W' = [P, W] + [B, Theta],  Theta' = [P, Theta]
on a pair of skew-Hermitian matrices.

Modelling conventions:
* numpy complex arrays become `Matrix (Fin n) (Fin n) ℂ`; the state array of
  shape `(2, N, N)` becomes `Fin 2 → Matrix (Fin n) (Fin n) ℂ` with component
  `0` the vorticity `W` and component `1` the magnetic potential `Theta`;
* floating-point scalars become real numbers (exact arithmetic);
* the imperative step/iteration loops become fuel-indexed structural
  recursion (`for i in range(maxit)` with `break`/`else` becomes a recursion
  on the remaining fuel, returning the iteration count and a flag recording
  whether the `else` branch of the `for` fired);
* in-place buffer mutation becomes explicit state passing: the buffers that
  survive across iterations/steps in the source (`dstate`, `Pstatecomm`,
  `BThetacomm`, the forcing product, the running time and the statistics
  counters) are threaded through an accumulator record;
* calls to caller-supplied callables (`hamiltonian`, `forcing`, `callback`)
  are recorded in traces so that temporal claims about the call arguments
  can be stated.
-/

namespace QuflowMhd

open scoped Classical
open Matrix

/-- Square complex matrices, the entry type of the numpy arrays. -/
abbrev Mat (n : ℕ) := Matrix (Fin n) (Fin n) ℂ

/-- The state array of shape `(2, N, N)`: component `0` is `W`,
component `1` is `Theta`. -/
abbrev St (n : ℕ) := Fin 2 → Mat n

/-- A batched state of shape `(2, B, N, N)`: the leading axis still selects
the component, the second axis the batched system. -/
abbrev BSt (b n : ℕ) := Fin 2 → Fin b → Mat n

/-- `X` is skew-Hermitian: `X = -X†` (the invariant the scheme preserves). -/
def IsSkewH {n : ℕ} (A : Mat n) : Prop := Aᴴ = -A

/-- Modelled from the spec: `conj_subtract_` (imported from the
`isospectral` module, which is not under `src/`) produces the
anti-self-adjoint combination `X - X†`. -/
def conj_subtract {n : ℕ} (X : Mat n) : Mat n := X - Xᴴ

/-- Row sum of entrywise absolute values, `∑_j |A i j|`. -/
noncomputable def rowSumAbs {n : ℕ} (A : Mat n) (i : Fin n) : ℝ :=
  ∑ j, Complex.abs (A i j)

/-- The matrix infinity norm `np.linalg.norm(A, np.inf)` /
`scipy.linalg.norm(A, ord=np.inf)`: maximum absolute row sum
(floored at `0`, which agrees with numpy since row sums are nonnegative). -/
noncomputable def linfNorm {n : ℕ} (A : Mat n) : ℝ :=
  Finset.univ.fold max 0 (rowSumAbs A)

theorem linfNorm_nonneg {n : ℕ} (A : Mat n) : 0 ≤ linfNorm A :=
  (Finset.le_fold_max 0).mpr (Or.inl le_rfl)

theorem rowSumAbs_zero {n : ℕ} (i : Fin n) : rowSumAbs (0 : Mat n) i = 0 := by
  simp [rowSumAbs]

theorem linfNorm_zero {n : ℕ} : linfNorm (0 : Mat n) = 0 := by
  refine le_antisymm ?_ (linfNorm_nonneg 0)
  exact (Finset.fold_max_le 0).mpr ⟨le_rfl, fun i _ => by simp [rowSumAbs_zero]⟩

theorem isSkewH_zero {n : ℕ} : IsSkewH (0 : Mat n) := by
  simp [IsSkewH]

theorem isSkewH_add {n : ℕ} {A B : Mat n} (hA : IsSkewH A) (hB : IsSkewH B) :
    IsSkewH (A + B) := by
  unfold IsSkewH at hA hB ⊢
  rw [conjTranspose_add, hA, hB]
  abel

theorem isSkewH_conj_subtract {n : ℕ} (X : Mat n) : IsSkewH (conj_subtract X) := by
  simp [IsSkewH, conj_subtract, conjTranspose_sub, neg_sub]

theorem isSkewH_add_conj_pair {n : ℕ} {A C : Mat n} (M : Mat n)
    (hA : IsSkewH A) (hC : IsSkewH C) : IsSkewH (A + M - Mᴴ + C) := by
  have h1 : A + M - Mᴴ + C = A + (M - Mᴴ) + C := by abel
  rw [h1]
  exact isSkewH_add (isSkewH_add hA (isSkewH_conj_subtract M)) hC

theorem isSkewH_mul_mul {n : ℕ} {A X : Mat n} (hA : IsSkewH A) (hX : IsSkewH X) :
    IsSkewH (A * X * A) := by
  unfold IsSkewH at hA hX ⊢
  rw [conjTranspose_mul, conjTranspose_mul, hA, hX]
  simp only [Matrix.neg_mul, Matrix.mul_neg, neg_neg]
  rw [Matrix.mul_assoc]

theorem isSkewH_real_smul {n : ℕ} (r : ℝ) {A : Mat n} (hA : IsSkewH A) :
    IsSkewH (r • A) := by
  unfold IsSkewH at hA ⊢
  ext i j
  have h1 : (starRingEnd ℂ) (A j i) = -A i j := by
    simpa [conjTranspose_apply] using congrArg (fun M => M i j) hA
  simp [conjTranspose_apply, Matrix.smul_apply, h1]

/-- The per-component residual vector
`scipy.linalg.norm(dstate_old, ord=np.inf, axis=(-1,-2))` for an unbatched
state array of shape `(2, N, N)`: one matrix infinity norm per component. -/
noncomputable def resnormvecU {n : ℕ} (D : St n) : Fin 2 → ℝ :=
  fun c => linfNorm (D c)

/-- The residual the code uses in the unbatched case
(`Phalf.ndim == 2`): `resnorm = resnormvec[0]`, i.e. the infinity norm of
the `W`-component of the increment difference only. -/
noncomputable def resnormUnbatched {n : ℕ} (D : St n) : ℝ := resnormvecU D 0

/-- Following the spec's words for claim C2 ("the batched infinity norm of
(previous increment − current increment) over the whole increment"):
the largest matrix infinity norm over both components. To be compared
against `resnormUnbatched`, which is what the code computes. -/
noncomputable def resnormSpecWhole {n : ℕ} (D : St n) : ℝ :=
  max (linfNorm (D 0)) (linfNorm (D 1))

/-- The per-component, per-system residual vector in the batched case
(state shape `(2, B, N, N)`), shape `(2, B)`. -/
noncomputable def resnormvecB {b n : ℕ} (D : BSt b n) : Fin 2 → Fin b → ℝ :=
  fun c k => linfNorm (D c k)

/-- The residual the code uses in the batched case (`Phalf.ndim > 2`):
`resnormvec.max()`, the maximum over the whole `(2, B)` array (floored at
`0`, which agrees with numpy since norms are nonnegative). -/
noncomputable def resnormBatched {b n : ℕ} (D : BSt b n) : ℝ :=
  Finset.univ.fold max 0 fun c => Finset.univ.fold max 0 (resnormvecB D c)

/-- The worst residual of the system at batch index `k`, over both
components. -/
noncomputable def sysResnorm {b n : ℕ} (D : BSt b n) (k : Fin b) : ℝ :=
  max (linfNorm (D 0 k)) (linfNorm (D 1 k))

/-- The caller-supplied Hamiltonian `hamiltonian(state) -> (P, B)` or
`hamiltonian(state, time) -> (P, B)`.  `usesTime` models the outcome of the
one-time `inspect.getfullargspec` check (whether the callable declares a
`time` argument); the function itself receives the optional time argument
the integrator would pass (`none` when called in autonomous form). -/
structure HamOp (n : ℕ) where
  f : St n → Option ℝ → Mat n × Mat n
  usesTime : Bool

/-- The optional forcing `forcing(P, state)` or `forcing(P, state, time)`,
returning a state-shaped perturbation. -/
structure ForceOp (n : ℕ) where
  f : Mat n → St n → Option ℝ → St n
  usesTime : Bool

/-- The time argument passed to a callable at the half step:
`time + hhalf` when the callable declares `time` and a time was supplied,
otherwise no time argument (autonomous call). -/
def halfTimeArg (usesTime : Bool) (hhalf : ℝ) (tcur : Option ℝ) : Option ℝ :=
  if usesTime then tcur.map (fun t => t + hhalf) else none

/-- The values produced by one pass of the inner fixed-point iteration body
(lines 139-180 of `mhd.py`): the new increment `dstate`, the
conjugate-subtracted products `Pstatecomm` and `BThetacomm` as they are left
in their buffers at the end of the pass, and the scaled forcing term `FW`. -/
structure IterOut (n : ℕ) where
  dstate : St n
  Pcs : St n
  Bcs : Mat n
  FW : St n

/-- One pass of the inner iteration body.  Follows the source line by line:
`statehalf = state + dstate`; evaluate the Hamiltonian at `statehalf`
(passing `time + hhalf` only in the non-autonomous case); scale
`Phalf`/`Bhalf` by `hhalf`; `Pstatecomm = Phalf @ statehalf` (broadcast over
the component axis), `BThetacomm = Bhalf @ Thetahalf`; the new `dstate`
starts as the second-order product `Pstatecomm @ Phalf`, then the
anti-self-adjoint combination of `Pstatecomm` is added to both components,
and `BThetaPhalf - BThetaPhalf† + (BThetacomm - BThetacomm†)` to the `W`
component only; finally the forcing contribution `hhalf*hb*forcing(...)`
(whose first argument `Phalf/hhalf` recovers the unscaled operator; the
Lean convention `x/0 = 0` stands in for the float `0/0` here). -/
noncomputable def iterMap {n : ℕ} (ham : HamOp n) (forcing : Option (ForceOp n))
    (hhalf hb : ℝ) (tcur : Option ℝ) (state d : St n) : IterOut n :=
  let sh : St n := fun c => state c + d c
  let PB := ham.f sh (halfTimeArg ham.usesTime hhalf tcur)
  let Phalf : Mat n := hhalf • PB.1
  let Bhalf : Mat n := hhalf • PB.2
  let Psc : St n := fun c => Phalf * sh c
  let BTh : Mat n := Bhalf * sh 1
  let BThP : Mat n := BTh * Phalf
  let d1 : St n := fun c => Psc c * Phalf + conj_subtract (Psc c)
  let d2 : St n := fun c =>
    if c = 0 then d1 c + BThP - BThPᴴ + conj_subtract BTh else d1 c
  match forcing with
  | none => ⟨d2, fun c => conj_subtract (Psc c), conj_subtract BTh, fun _ => 0⟩
  | some F =>
      let FW : St n := fun c =>
        (hhalf * hb) •
          F.f (hhalf⁻¹ • Phalf) sh (halfTimeArg F.usesTime hhalf tcur) c
  ⟨fun c => d2 c + FW c, fun c => conj_subtract (Psc c), conj_subtract BTh, FW⟩

/-- The loop-carried data of the inner iteration: the current increment
`dstate`, the current buffer contents of `Pstatecomm`, `BThetacomm` and
`FW`, and the last computed residual (`none` models the per-step
initialisation `resnorm = np.inf`). -/
structure LoopSt (n : ℕ) where
  d : St n
  Pcs : St n
  Bcs : Mat n
  FW : St n
  res : Option ℝ

/-- `resnorm >= resnorm_old` with `resnorm_old` possibly the initial
`np.inf` (in which case a finite residual is never `≥` it). -/
def resGe (r : ℝ) : Option ℝ → Prop
  | none => False
  | some r0 => r0 ≤ r

/-- The inner fixed-point loop `for i in range(maxit): ... else: ...`
(lines 134-204).  The first `ℕ` argument is the remaining fuel (initially
`maxit`), the second the current iteration index `i`.  Returns the final
loop state, the number of iterations executed, and whether the `for`'s
`else` branch fired (no `break`: "maxit reached").  From iteration
`i+1 ≥ minit` on, the residual of (previous increment − current increment)
is compared against the tolerance and the previous residual. -/
noncomputable def innerLoopAux {n : ℕ} (ham : HamOp n) (forcing : Option (ForceOp n))
    (hhalf hb : ℝ) (tcur : Option ℝ) (state : St n) (minit : ℕ) (tol : ℝ) :
    ℕ → ℕ → LoopSt n → LoopSt n × ℕ × Bool
  | 0, _, ls => (ls, 0, true)
  | (r + 1), i, ls =>
      let it := iterMap ham forcing hhalf hb tcur state ls.d
      let rn := resnormUnbatched (fun c => ls.d c - it.dstate c)
      if minit ≤ i + 1 then
        if rn ≤ tol ∨ resGe rn ls.res then
          (⟨it.dstate, it.Pcs, it.Bcs, it.FW, some rn⟩, 1, false)
        else
          let q := innerLoopAux ham forcing hhalf hb tcur state minit tol r (i + 1)
            ⟨it.dstate, it.Pcs, it.Bcs, it.FW, some rn⟩
          (q.1, q.2.1 + 1, q.2.2)
      else
        let q := innerLoopAux ham forcing hhalf hb tcur state minit tol r (i + 1)
          ⟨it.dstate, it.Pcs, it.Bcs, it.FW, ls.res⟩
        (q.1, q.2.1 + 1, q.2.2)

/-- The statistics dictionary: an association list modelling the Python
dict (insertion order preserved; assigning to an existing key overwrites in
place, a new key is appended at the end). -/
def dictSet (l : List (String × ℝ)) (k : String) (v : ℝ) : List (String × ℝ) :=
  if l.any (fun p => p.1 == k) then
    l.map (fun p => if p.1 == k then (k, v) else p)
  else l ++ [(k, v)]

/-- Dictionary lookup. -/
def dictGet (l : List (String × ℝ)) (k : String) : Option ℝ :=
  (l.find? (fun p => p.1 == k)).map (fun p => p.2)

/-- Lookup through the optional stats argument. -/
def getKey (o : Option (List (String × ℝ))) (k : String) : Option ℝ :=
  o.bind (fun l => dictGet l k)

/-- Python truthiness of the `stats` argument: `if stats:` is `False` both
for `None` and for an empty dict. -/
def statsTruthy : Option (List (String × ℝ)) → Bool
  | none => false
  | some l => !l.isEmpty

/-- All the arguments of `magmp_fixedpoint`, plus the two quantities the
function obtains from modules that are not under `src/`:
`eps` models `np.finfo(state.dtype).eps` (the machine epsilon of the
state's dtype) and `hb` models the scalar `hbar(N=state.shape[-1])`
(modelled from the spec: "a scalar geometric constant derived from matrix
size", from the `geometry` module).  `tolArg = none` models `tol='auto'`;
`callbackOn` models `callback is not None`; `stats0` is the caller's dict
(or `None`); `time0` the optional initial time. -/
structure Params (n : ℕ) where
  s0 : St n
  stepsize : ℝ
  steps : ℕ
  ham : HamOp n
  time0 : Option ℝ
  forcing : Option (ForceOp n)
  stats0 : Option (List (String × ℝ))
  callbackOn : Bool
  tolArg : Option ℝ
  maxit : ℕ
  minit : ℕ
  verbatim : Bool
  reinitialize : Bool
  eps : ℝ
  hb : ℝ

/-- Whether the tolerance is auto-resolved: `tol == "auto" or tol < 0`. -/
def tolIsAuto {n : ℕ} (P : Params n) : Prop :=
  match P.tolArg with
  | none => True
  | some t => t < 0

/-- The auto-resolved tolerance (lines 113-119): since the state array has
`ndim > 2`, `zeroind = (0,)*(state.ndim-2) + (Ellipsis,)` selects component
`0` (the `W` matrix, at batch index 0 when batched), so
`tol = sqrt(mach_eps) * stepsize * ||state[0]||_inf`. -/
noncomputable def tolResolve {n : ℕ} (eps h : ℝ) (s : St n) : ℝ :=
  Real.sqrt eps * h * linfNorm (s 0)

/-- Following the spec's words for claim C3 ("the infinity norm of the
initial state, taking the representative system at batch index 0 when
batched"): the norm over the whole (two-component) initial state.  To be
compared against `tolResolve`, which is what the code computes. -/
noncomputable def tolSpecWhole {n : ℕ} (eps h : ℝ) (s : St n) : ℝ :=
  Real.sqrt eps * h * max (linfNorm (s 0)) (linfNorm (s 1))

/-- The tolerance actually used by the iteration. -/
noncomputable def tolUsed {n : ℕ} (P : Params n) : ℝ :=
  match P.tolArg with
  | none => tolResolve P.eps P.stepsize P.s0
  | some t => if t < 0 then tolResolve P.eps P.stepsize P.s0 else t

/-- The stats dict right after tolerance resolution (lines 122-123): the
resolved tolerance is recorded only when the tolerance was auto-resolved
and `if stats:` is truthy (i.e. a non-empty dict was supplied). -/
noncomputable def stats1 {n : ℕ} (P : Params n) : Option (List (String × ℝ)) :=
  if tolIsAuto P ∧ statsTruthy P.stats0 = true then
    P.stats0.map (fun l => dictSet l "tol" (tolUsed P))
  else P.stats0

/-- The mutable data threaded through the outer step loop: the state, the
warm-started increment, the `Pstatecomm`/`BThetacomm`/`FW` buffers (as left
by the previous step, i.e. doubled), the running time, the two statistics
counters, and the instrumentation traces (the per-step time argument passed
to the Hamiltonian, the per-step callback observations, the per-step inner
iteration counts). -/
structure Acc (n : ℕ) where
  state : St n
  d : St n
  Pbuf : St n
  Bbuf : Mat n
  FWbuf : St n
  tcur : Option ℝ
  totalIters : ℕ
  maxitCount : ℕ
  hamTimes : List (Option ℝ)
  cbTrace : List (St n × St n)
  iterCounts : List ℕ

/-- The inner fixed-point loop of one outer step, entered with the
warm-started (or reinitialised) increment, the current buffers, and
`resnorm = np.inf`. -/
noncomputable def stepLoop {n : ℕ} (P : Params n) (a : Acc n) :
    LoopSt n × ℕ × Bool :=
  innerLoopAux P.ham P.forcing (P.stepsize / 2) P.hb a.tcur a.state P.minit
    (tolUsed P) P.maxit 0
    ⟨(if P.reinitialize then (fun _ => 0) else a.d), a.Pbuf, a.Bbuf, a.FWbuf, none⟩

/-- `Pstatecomm *= 2` after the inner loop (line 207). -/
noncomputable def stepPcs2 {n : ℕ} (P : Params n) (a : Acc n) : St n :=
  fun c => (2 : ℝ) • (stepLoop P a).1.Pcs c

/-- `BThetacomm *= 2` after the inner loop (line 208). -/
noncomputable def stepBcs2 {n : ℕ} (P : Params n) (a : Acc n) : Mat n :=
  (2 : ℝ) • (stepLoop P a).1.Bcs

/-- `FW *= 2` at the end of the step when forcing is active (line 218). -/
noncomputable def stepFW2 {n : ℕ} (P : Params n) (a : Acc n) : St n :=
  fun c => (2 : ℝ) • (stepLoop P a).1.FW c

/-- The state update of one step (lines 215-219): the doubled `Pstatecomm`
to both components, the doubled `BThetacomm` to the `W` component only, and
the doubled forcing term when forcing is active. -/
noncomputable def stepState {n : ℕ} (P : Params n) (a : Acc n) : St n :=
  fun c =>
    let s1 := a.state c + stepPcs2 P a c
    let s2 := if c = 0 then s1 + stepBcs2 P a else s1
    match P.forcing with
    | none => s2
    | some _ => s2 + stepFW2 P a c

/-- `if time: time += stepsize` (lines 221-222): note the Python truthiness
test, which leaves the time unchanged when it currently equals `0.0`. -/
noncomputable def advTime (h : ℝ) : Option ℝ → Option ℝ
  | none => none
  | some t => if t = 0 then some t else some (t + h)

/-- One outer step (loop body of lines 126-222). -/
noncomputable def stepFn {n : ℕ} (P : Params n) (a : Acc n) : Acc n :=
  { state := stepState P a
    d := (stepLoop P a).1.d
    Pbuf := stepPcs2 P a
    Bbuf := stepBcs2 P a
    FWbuf := (match P.forcing with
              | none => (stepLoop P a).1.FW
              | some _ => stepFW2 P a)
    tcur := advTime P.stepsize a.tcur
    totalIters := a.totalIters + (stepLoop P a).2.1
    maxitCount := a.maxitCount + (if (stepLoop P a).2.2 then 1 else 0)
    hamTimes := a.hamTimes ++ [halfTimeArg P.ham.usesTime (P.stepsize / 2) a.tcur]
    cbTrace := a.cbTrace ++
      (if P.callbackOn then [(a.state, stepPcs2 P a)] else [])
    iterCounts := a.iterCounts ++ [(stepLoop P a).2.1] }

/-- Initial accumulator: the caller's state, zero-filled scratch buffers,
the initial time, empty statistics and traces (lines 98-110). -/
noncomputable def accInit {n : ℕ} (P : Params n) : Acc n :=
  { state := P.s0
    d := fun _ => 0
    Pbuf := fun _ => 0
    Bbuf := 0
    FWbuf := fun _ => 0
    tcur := P.time0
    totalIters := 0
    maxitCount := 0
    hamTimes := []
    cbTrace := []
    iterCounts := [] }

/-- The accumulator after `k` completed outer steps. -/
noncomputable def accAfter {n : ℕ} (P : Params n) : ℕ → Acc n
  | 0 => accInit P
  | k + 1 => stepFn P (accAfter P k)

/-- The whole step loop: the accumulator after all `steps` steps. -/
noncomputable def magmpRun {n : ℕ} (P : Params n) : Acc n :=
  accAfter P P.steps

/-- The stats dict as filled in at the end of the call (lines 228-230),
when the division by `steps` does not fail. -/
noncomputable def statsOut {n : ℕ} (P : Params n) : Option (List (String × ℝ)) :=
  if statsTruthy (stats1 P) = true then
    (stats1 P).map (fun l =>
      dictSet (dictSet l "iterations" (((magmpRun P).totalIters : ℝ) / P.steps))
        "maxit" (((magmpRun P).maxitCount : ℝ) / P.steps))
  else stats1 P

/-- The errors `magmp_fixedpoint` can raise: the `assert` failures of lines
81-82, and the `ZeroDivisionError` of lines 227/229 when `steps == 0` and
the average iteration count is computed (for the verbatim printout or the
stats record).  The global `_SKEW_HERM_` flag asserted on line 83 lives in
the `isospectral` module (not under `src/`) and is modelled from the spec as
the fixed structural configuration being active, so that assert passes. -/
inductive RunError where
  | assertionError : RunError
  | zeroDivisionError : RunError
deriving DecidableEq

/-- The whole of `magmp_fixedpoint`: argument checking, tolerance
resolution, the step loop, and the final statistics (whose division by
`steps` raises when `steps = 0` and it is actually evaluated, i.e. when
`verbatim` is set or the stats dict is truthy).  Returns the final state
together with the content of the caller's stats dict. -/
noncomputable def magmp_fixedpoint {n : ℕ} (P : Params n) :
    Except RunError (St n × Option (List (String × ℝ))) :=
  if P.minit < 1 ∨ P.maxit < P.minit then .error .assertionError
  else if P.steps = 0 ∧ (P.verbatim = true ∨ statsTruthy (stats1 P) = true) then
    .error .zeroDivisionError
  else .ok ((magmpRun P).state, statsOut P)

/-! ## Declarative description of the inner loop

Within one outer step the iteration body does not read the residual
bookkeeping, so the sequence of increments is the plain orbit of the
iteration map; the loop's control flow is then characterised against this
orbit. -/

section LoopSpec

variable {n : ℕ} (ham : HamOp n) (forcing : Option (ForceOp n))
  (hhalf hb : ℝ) (tcur : Option ℝ) (state : St n) (minit : ℕ) (tol : ℝ)
  (d0 : St n)

/-- The orbit of the increment under the iteration map, starting from the
increment the step was entered with. -/
noncomputable def dIter : ℕ → St n
  | 0 => d0
  | j + 1 => (iterMap ham forcing hhalf hb tcur state (dIter j)).dstate

/-- The residual that iteration `j` (0-indexed) computes when it checks for
termination: the code's (component-0) norm of
(previous increment − current increment). -/
noncomputable def resSeq (j : ℕ) : ℝ :=
  resnormUnbatched (fun c =>
    dIter ham forcing hhalf hb tcur state d0 j c -
    dIter ham forcing hhalf hb tcur state d0 (j + 1) c)

/-- Iteration `j` stops the loop: at least `minit` iterations have run
(`minit ≤ j+1`), and the residual is within tolerance or has stopped
decreasing relative to the previously computed residual (which exists only
if a check already ran at iteration `j-1`, i.e. if `minit ≤ j`). -/
def stopCond (j : ℕ) : Prop :=
  minit ≤ j + 1 ∧
    (resSeq ham forcing hhalf hb tcur state d0 j ≤ tol ∨
      (minit ≤ j ∧
        resSeq ham forcing hhalf hb tcur state d0 (j - 1) ≤
          resSeq ham forcing hhalf hb tcur state d0 j))

/-- The `resnorm` variable as the loop enters iteration `j`: still the
initial `np.inf` (`none`) until the first check has run. -/
noncomputable def resOldAt (j : ℕ) : Option ℝ :=
  if minit ≤ j then some (resSeq ham forcing hhalf hb tcur state d0 (j - 1))
  else none

end LoopSpec

section LoopSpecProof

variable {n : ℕ} (ham : HamOp n) (forcing : Option (ForceOp n))
  (hhalf hb : ℝ) (tcur : Option ℝ) (state : St n) (minit : ℕ) (tol : ℝ)
  (d0 : St n)

/-- Full characterisation of the inner loop against the declarative orbit:
the final increment is the `u`-th iterate; at most `rem` iterations run;
the `else`-branch flag (`mx`) fires exactly when no iteration in the fuel
window satisfied the stop condition; on early exit the last executed
iteration is the first one satisfying the stop condition; and the final
buffers are the iteration outputs of the last executed iteration. -/
theorem innerLoopAux_spec :
    ∀ (rem i : ℕ) (ls : LoopSt n),
      ls.d = dIter ham forcing hhalf hb tcur state d0 i →
      ls.res = resOldAt ham forcing hhalf hb tcur state minit d0 i →
      ∀ ls' u mx,
        innerLoopAux ham forcing hhalf hb tcur state minit tol rem i ls
          = (ls', u, mx) →
        (u = 0 → ls' = ls) ∧
        ls'.d = dIter ham forcing hhalf hb tcur state d0 (i + u) ∧
        u ≤ rem ∧
        (mx = true → u = rem ∧ ∀ j, i ≤ j → j < i + rem →
          ¬ stopCond ham forcing hhalf hb tcur state minit tol d0 j) ∧
        (mx = false → 1 ≤ u ∧
          stopCond ham forcing hhalf hb tcur state minit tol d0 (i + u - 1) ∧
          ∀ j, i ≤ j → j < i + u - 1 →
            ¬ stopCond ham forcing hhalf hb tcur state minit tol d0 j) ∧
        (1 ≤ u →
          ls'.Pcs = (iterMap ham forcing hhalf hb tcur state
            (dIter ham forcing hhalf hb tcur state d0 (i + u - 1))).Pcs ∧
          ls'.Bcs = (iterMap ham forcing hhalf hb tcur state
            (dIter ham forcing hhalf hb tcur state d0 (i + u - 1))).Bcs ∧
          ls'.FW = (iterMap ham forcing hhalf hb tcur state
            (dIter ham forcing hhalf hb tcur state d0 (i + u - 1))).FW) := by
  intro rem
  induction rem with
  | zero =>
      intro i ls hd hres ls' u mx heq
      simp only [innerLoopAux] at heq
      injection heq with h1 h2
      injection h2 with h2 h3
      subst h1; subst h2; subst h3
      refine ⟨fun _ => rfl, by simpa using hd, le_rfl, ?_, ?_, ?_⟩
      · exact fun _ => ⟨rfl, fun j hj hj' => absurd hj' (by omega)⟩
      · intro h; exact absurd h (by simp)
      · intro h; exact absurd h (by omega)
  | succ r IH =>
      intro i ls hd hres ls' u mx heq
      simp only [innerLoopAux] at heq
      have hds : (iterMap ham forcing hhalf hb tcur state ls.d).dstate
          = dIter ham forcing hhalf hb tcur state d0 (i + 1) := by
        rw [hd]
        simp only [dIter]
      have hrn : resnormUnbatched (fun c =>
            ls.d c - (iterMap ham forcing hhalf hb tcur state ls.d).dstate c)
          = resSeq ham forcing hhalf hb tcur state d0 i := by
        unfold resSeq
        rw [hd]
        simp only [dIter]
      by_cases hA : minit ≤ i + 1
      · rw [if_pos hA] at heq
        by_cases hB : resnormUnbatched (fun c =>
              ls.d c - (iterMap ham forcing hhalf hb tcur state ls.d).dstate c)
            ≤ tol ∨
            resGe (resnormUnbatched (fun c =>
              ls.d c - (iterMap ham forcing hhalf hb tcur state ls.d).dstate c))
              ls.res
        · rw [if_pos hB] at heq
          injection heq with h1 h2
          injection h2 with h2 h3
          subst h1; subst h2; subst h3
          have hsc : stopCond ham forcing hhalf hb tcur state minit tol d0 i := by
            refine ⟨hA, ?_⟩
            rcases hB with hB | hB
            · exact Or.inl (hrn ▸ hB)
            · by_cases hmi : minit ≤ i
              · refine Or.inr ⟨hmi, ?_⟩
                rw [hres] at hB
                unfold resOldAt at hB
                rw [if_pos hmi] at hB
                exact hrn ▸ hB
              · rw [hres] at hB
                unfold resOldAt at hB
                rw [if_neg hmi] at hB
                exact absurd hB (by simp [resGe])
          refine ⟨fun h => absurd h one_ne_zero, hds, by omega, ?_, ?_, ?_⟩
          · intro h; exact absurd h (by simp)
          · intro _
            have h11 : i + 1 - 1 = i := by omega
            refine ⟨le_rfl, by rw [h11]; exact hsc, ?_⟩
            intro j hj hj'
            exact absurd hj' (by omega)
          · intro _
            have h11 : i + 1 - 1 = i := by omega
            rw [h11, ← hd]
            exact ⟨rfl, rfl, rfl⟩
        · rw [if_neg hB] at heq
          rcases hQe : innerLoopAux ham forcing hhalf hb tcur state minit tol r
              (i + 1)
              ⟨(iterMap ham forcing hhalf hb tcur state ls.d).dstate,
               (iterMap ham forcing hhalf hb tcur state ls.d).Pcs,
               (iterMap ham forcing hhalf hb tcur state ls.d).Bcs,
               (iterMap ham forcing hhalf hb tcur state ls.d).FW,
               some (resnormUnbatched (fun c =>
                 ls.d c - (iterMap ham forcing hhalf hb tcur state ls.d).dstate c))⟩
            with ⟨ls2, u2, mx2⟩
          rw [hQe] at heq
          have heq2 : ((ls2, u2 + 1, mx2) : LoopSt n × ℕ × Bool) = (ls', u, mx) := heq
          injection heq2 with h1 h2
          injection h2 with h2 h3
          subst h1; subst h2; subst h3
          have hnsc : ¬ stopCond ham forcing hhalf hb tcur state minit tol d0 i := by
            rintro ⟨-, hor⟩
            rcases hor with hor | ⟨hmi, hle⟩
            · exact hB (Or.inl (hrn ▸ hor))
            · refine hB (Or.inr ?_)
              rw [hres]
              unfold resOldAt
              rw [if_pos hmi]
              exact hrn ▸ hle
          have hIH := IH (i + 1)
            ⟨(iterMap ham forcing hhalf hb tcur state ls.d).dstate,
             (iterMap ham forcing hhalf hb tcur state ls.d).Pcs,
             (iterMap ham forcing hhalf hb tcur state ls.d).Bcs,
             (iterMap ham forcing hhalf hb tcur state ls.d).FW,
             some (resnormUnbatched (fun c =>
               ls.d c - (iterMap ham forcing hhalf hb tcur state ls.d).dstate c))⟩
            hds
            (show some (resnormUnbatched (fun c =>
                ls.d c - (iterMap ham forcing hhalf hb tcur state ls.d).dstate c))
              = resOldAt ham forcing hhalf hb tcur state minit d0 (i + 1) by
              unfold resOldAt
              rw [if_pos hA, hrn]
              have h11 : i + 1 - 1 = i := by omega
              rw [h11])
            ls2 u2 mx2 hQe
          obtain ⟨hP0, hPd, hPle, hPmx, hPbr, hPbuf⟩ := hIH
          refine ⟨fun h => absurd h (by omega), ?_, by omega, ?_, ?_, ?_⟩
          · have h14 : i + (u2 + 1) = i + 1 + u2 := by omega
            rw [h14]
            exact hPd
          · intro hmx
            obtain ⟨hu2, hall⟩ := hPmx hmx
            refine ⟨by omega, ?_⟩
            intro j hj hj'
            rcases Nat.eq_or_lt_of_le hj with rfl | hj
            · exact hnsc
            · exact hall j (by omega) (by omega)
          · intro hmx
            obtain ⟨hu1, hsc2, hall⟩ := hPbr hmx
            refine ⟨by omega, ?_, ?_⟩
            · have h12 : i + (u2 + 1) - 1 = i + 1 + u2 - 1 := by omega
              rw [h12]; exact hsc2
            · intro j hj hj'
              rcases Nat.eq_or_lt_of_le hj with rfl | hj
              · exact hnsc
              · exact hall j (by omega) (by omega)
          · intro _
            rcases Nat.eq_zero_or_pos u2 with rfl | hu2
            · have hls2 := hP0 rfl
              subst hls2
              have h13 : i + (0 + 1) - 1 = i := by omega
              rw [h13, ← hd]
              exact ⟨rfl, rfl, rfl⟩
            · obtain ⟨hp, hbq, hf⟩ := hPbuf hu2
              have h12 : i + (u2 + 1) - 1 = i + 1 + u2 - 1 := by omega
              rw [h12]
              exact ⟨hp, hbq, hf⟩
      · rw [if_neg hA] at heq
        rcases hQe : innerLoopAux ham forcing hhalf hb tcur state minit tol r
            (i + 1)
            ⟨(iterMap ham forcing hhalf hb tcur state ls.d).dstate,
             (iterMap ham forcing hhalf hb tcur state ls.d).Pcs,
             (iterMap ham forcing hhalf hb tcur state ls.d).Bcs,
             (iterMap ham forcing hhalf hb tcur state ls.d).FW,
             ls.res⟩
          with ⟨ls2, u2, mx2⟩
        rw [hQe] at heq
        have heq2 : ((ls2, u2 + 1, mx2) : LoopSt n × ℕ × Bool) = (ls', u, mx) := heq
        injection heq2 with h1 h2
        injection h2 with h2 h3
        subst h1; subst h2; subst h3
        have hnsc : ¬ stopCond ham forcing hhalf hb tcur state minit tol d0 i := by
          rintro ⟨hmin, -⟩
          exact hA hmin
        have hIH := IH (i + 1)
          ⟨(iterMap ham forcing hhalf hb tcur state ls.d).dstate,
           (iterMap ham forcing hhalf hb tcur state ls.d).Pcs,
           (iterMap ham forcing hhalf hb tcur state ls.d).Bcs,
           (iterMap ham forcing hhalf hb tcur state ls.d).FW,
           ls.res⟩
          hds
          (show ls.res = resOldAt ham forcing hhalf hb tcur state minit d0 (i + 1) by
            rw [hres]
            unfold resOldAt
            rw [if_neg hA, if_neg (by omega : ¬ minit ≤ i)])
          ls2 u2 mx2 hQe
        obtain ⟨hP0, hPd, hPle, hPmx, hPbr, hPbuf⟩ := hIH
        refine ⟨fun h => absurd h (by omega), ?_, by omega, ?_, ?_, ?_⟩
        · have h14 : i + (u2 + 1) = i + 1 + u2 := by omega
          rw [h14]
          exact hPd
        · intro hmx
          obtain ⟨hu2, hall⟩ := hPmx hmx
          refine ⟨by omega, ?_⟩
          intro j hj hj'
          rcases Nat.eq_or_lt_of_le hj with rfl | hj
          · exact hnsc
          · exact hall j (by omega) (by omega)
        · intro hmx
          obtain ⟨hu1, hsc2, hall⟩ := hPbr hmx
          refine ⟨by omega, ?_, ?_⟩
          · have h12 : i + (u2 + 1) - 1 = i + 1 + u2 - 1 := by omega
            rw [h12]; exact hsc2
          · intro j hj hj'
            rcases Nat.eq_or_lt_of_le hj with rfl | hj
            · exact hnsc
            · exact hall j (by omega) (by omega)
        · intro _
          rcases Nat.eq_zero_or_pos u2 with rfl | hu2
          · have hls2 := hP0 rfl
            subst hls2
            have h13 : i + (0 + 1) - 1 = i := by omega
            rw [h13, ← hd]
            exact ⟨rfl, rfl, rfl⟩
          · obtain ⟨hp, hbq, hf⟩ := hPbuf hu2
            have h12 : i + (u2 + 1) - 1 = i + 1 + u2 - 1 := by omega
            rw [h12]
            exact ⟨hp, hbq, hf⟩

end LoopSpecProof

section LoopBounds

variable {n : ℕ} (ham : HamOp n) (forcing : Option (ForceOp n))
  (hhalf hb : ℝ) (tcur : Option ℝ) (state : St n) (minit : ℕ) (tol : ℝ)

/-- The inner loop never executes more than its fuel (`maxit`) iterations. -/
theorem innerLoopAux_used_le :
    ∀ (rem i : ℕ) (ls : LoopSt n),
      (innerLoopAux ham forcing hhalf hb tcur state minit tol rem i ls).2.1 ≤ rem := by
  intro rem
  induction rem with
  | zero => intro i ls; simp [innerLoopAux]
  | succ r IH =>
      intro i ls
      simp only [innerLoopAux]
      split_ifs with h1 h2
      · simp
      · dsimp only
        exact Nat.add_le_add_right (IH (i + 1) _) 1
      · dsimp only
        exact Nat.add_le_add_right (IH (i + 1) _) 1

/-- The inner loop never stops before completing `min fuel minit`
iterations counted from index `i` (the break is only reachable once
`minit ≤ i + 1`). -/
theorem innerLoopAux_used_ge :
    ∀ (rem i : ℕ) (ls : LoopSt n),
      min rem (minit - i) ≤
        (innerLoopAux ham forcing hhalf hb tcur state minit tol rem i ls).2.1 := by
  intro rem
  induction rem with
  | zero => intro i ls; simp [innerLoopAux]
  | succ r IH =>
      intro i ls
      simp only [innerLoopAux]
      split_ifs with h1 h2
      · dsimp only
        omega
      · dsimp only
        refine le_trans ?_ (Nat.add_le_add_right (IH (i + 1) _) 1)
        omega
      · dsimp only
        refine le_trans ?_ (Nat.add_le_add_right (IH (i + 1) _) 1)
        omega

/-- Invariant preservation through the inner loop for arbitrary predicates
on the three output buffers: each executed iteration overwrites them with
iteration-map outputs, and an unexecuted loop returns them unchanged. -/
theorem innerLoopAux_buf_inv (Q : St n → Prop) (R : Mat n → Prop) (S : St n → Prop)
    (hQ : ∀ d : St n, Q (iterMap ham forcing hhalf hb tcur state d).Pcs)
    (hR : ∀ d : St n, R (iterMap ham forcing hhalf hb tcur state d).Bcs)
    (hS : ∀ d : St n, S (iterMap ham forcing hhalf hb tcur state d).FW) :
    ∀ (rem i : ℕ) (ls : LoopSt n), Q ls.Pcs → R ls.Bcs → S ls.FW →
      Q (innerLoopAux ham forcing hhalf hb tcur state minit tol rem i ls).1.Pcs ∧
      R (innerLoopAux ham forcing hhalf hb tcur state minit tol rem i ls).1.Bcs ∧
      S (innerLoopAux ham forcing hhalf hb tcur state minit tol rem i ls).1.FW := by
  intro rem
  induction rem with
  | zero =>
      intro i ls hq hr hs
      simp only [innerLoopAux]
      exact ⟨hq, hr, hs⟩
  | succ r IH =>
      intro i ls hq hr hs
      simp only [innerLoopAux]
      split_ifs with h1 h2
      · dsimp only
        exact ⟨hQ _, hR _, hS _⟩
      · dsimp only
        exact IH (i + 1) _ (hQ _) (hR _) (hS _)
      · dsimp only
        exact IH (i + 1) _ (hQ _) (hR _) (hS _)

/-- Invariant preservation through the inner loop for a predicate on the
increment: each executed iteration replaces it by the iteration map's
output. -/
theorem innerLoopAux_d_inv (Qd : St n → Prop)
    (hiter : ∀ d : St n, Qd d →
      Qd (iterMap ham forcing hhalf hb tcur state d).dstate) :
    ∀ (rem i : ℕ) (ls : LoopSt n), Qd ls.d →
      Qd (innerLoopAux ham forcing hhalf hb tcur state minit tol rem i ls).1.d := by
  intro rem
  induction rem with
  | zero =>
      intro i ls hq
      simp only [innerLoopAux]
      exact hq
  | succ r IH =>
      intro i ls hq
      simp only [innerLoopAux]
      split_ifs with h1 h2
      · dsimp only
        exact hiter _ hq
      · dsimp only
        exact IH (i + 1) _ (hiter _ hq)
      · dsimp only
        exact IH (i + 1) _ (hiter _ hq)

end LoopBounds

/-! ## Iteration-map structure lemmas -/

section IterMapLemmas

variable {n : ℕ} (ham : HamOp n) (forcing : Option (ForceOp n))
  (hhalf hb : ℝ) (tcur : Option ℝ) (state d : St n)

theorem conj_subtract_zero : conj_subtract (0 : Mat n) = 0 := by
  simp [conj_subtract]

/-- The `Pstatecomm` buffer is left holding an anti-self-adjoint
combination `X - X†` after every iteration, hence is skew-Hermitian. -/
theorem iterMap_Pcs_skew (c : Fin 2) :
    IsSkewH ((iterMap ham forcing hhalf hb tcur state d).Pcs c) := by
  cases forcing <;>
    · simp only [iterMap]
      exact isSkewH_conj_subtract _

/-- The `BThetacomm` buffer is left holding an anti-self-adjoint
combination, hence is skew-Hermitian. -/
theorem iterMap_Bcs_skew :
    IsSkewH (iterMap ham forcing hhalf hb tcur state d).Bcs := by
  cases forcing <;>
    · simp only [iterMap]
      exact isSkewH_conj_subtract _

end IterMapLemmas

/-- Without forcing, the new increment computed by the iteration body is
skew-Hermitian whenever the state, the previous increment and the
Hamiltonian's outputs are: the second-order term is the anti-self-adjoint
sandwich `P·sh·P`, and every other contribution is an explicit `X - X†`. -/
theorem iterMap_dstate_skew {n : ℕ} (ham : HamOp n) (hhalf hb : ℝ)
    (tcur : Option ℝ) (state d : St n)
    (hham : ∀ (s : St n) (t : Option ℝ),
      IsSkewH ((ham.f s t).1) ∧ IsSkewH ((ham.f s t).2))
    (hstate : ∀ c, IsSkewH (state c)) (hd : ∀ c, IsSkewH (d c)) (c : Fin 2) :
    IsSkewH ((iterMap ham none hhalf hb tcur state d).dstate c) := by
  have hsh : ∀ x : Fin 2, IsSkewH (state x + d x) := fun x =>
    isSkewH_add (hstate x) (hd x)
  simp only [iterMap]
  split_ifs with hc
  · apply isSkewH_add_conj_pair
    · apply isSkewH_add
      · exact isSkewH_mul_mul (isSkewH_real_smul _ (hham _ _).1) (hsh c)
      · exact isSkewH_conj_subtract _
    · exact isSkewH_conj_subtract _
  · apply isSkewH_add
    · exact isSkewH_mul_mul (isSkewH_real_smul _ (hham _ _).1) (hsh c)
    · exact isSkewH_conj_subtract _

section IterMapLemmasMore

variable {n : ℕ} (ham : HamOp n) (forcing : Option (ForceOp n))
  (hhalf hb : ℝ) (tcur : Option ℝ) (state d : St n)

/-- Without forcing, the `FW` term of the iteration is zero. -/
theorem iterMap_FW_none :
    (iterMap ham none hhalf hb tcur state d).FW = fun _ => (0 : Mat n) := by
  simp only [iterMap]

/-- With `stepsize = 0` the half-step operators are scaled to zero, so the
`Pstatecomm` product vanishes. -/
theorem iterMap_zero_Pcs :
    (iterMap ham forcing 0 hb tcur state d).Pcs = fun _ => (0 : Mat n) := by
  cases forcing <;>
    · funext c
      simp [iterMap, conj_subtract_zero]

theorem iterMap_zero_Bcs :
    (iterMap ham forcing 0 hb tcur state d).Bcs = (0 : Mat n) := by
  cases forcing <;> simp [iterMap, conj_subtract_zero]

theorem iterMap_zero_FW :
    (iterMap ham forcing 0 hb tcur state d).FW = fun _ => (0 : Mat n) := by
  cases forcing <;>
    · funext c
      simp [iterMap]

end IterMapLemmasMore

/-! ## Step-level and run-level invariants -/

section StepLemmas

variable {n : ℕ} (P : Params n) (a : Acc n)

/-- The loop leaves the `Pstatecomm`/`BThetacomm` buffers skew-Hermitian
whenever they enter the step skew-Hermitian. -/
theorem stepLoop_skew (hP : ∀ c, IsSkewH (a.Pbuf c)) (hB : IsSkewH a.Bbuf) :
    (∀ c, IsSkewH ((stepLoop P a).1.Pcs c)) ∧ IsSkewH (stepLoop P a).1.Bcs := by
  have h := innerLoopAux_buf_inv P.ham P.forcing (P.stepsize / 2) P.hb a.tcur
    a.state P.minit (tolUsed P)
    (fun X => ∀ c, IsSkewH (X c)) (fun X => IsSkewH X) (fun _ => True)
    (fun d c => iterMap_Pcs_skew P.ham P.forcing (P.stepsize / 2) P.hb a.tcur a.state d c)
    (fun d => iterMap_Bcs_skew P.ham P.forcing (P.stepsize / 2) P.hb a.tcur a.state d)
    (fun _ => trivial)
    P.maxit 0
    ⟨(if P.reinitialize then (fun _ => 0) else a.d), a.Pbuf, a.Bbuf, a.FWbuf, none⟩
    hP hB trivial
  exact ⟨h.1, h.2.1⟩

/-- Without forcing, the loop's final increment is skew-Hermitian whenever
the state, the initial increment and the Hamiltonian's outputs are. -/
theorem stepLoop_d_skew (hforce : P.forcing = none)
    (hham : ∀ (s : St n) (t : Option ℝ),
      IsSkewH ((P.ham.f s t).1) ∧ IsSkewH ((P.ham.f s t).2))
    (hstate : ∀ c, IsSkewH (a.state c)) (hd : ∀ c, IsSkewH (a.d c)) :
    ∀ c, IsSkewH ((stepLoop P a).1.d c) := by
  have h := innerLoopAux_d_inv P.ham P.forcing (P.stepsize / 2) P.hb a.tcur
    a.state P.minit (tolUsed P)
    (fun D => ∀ c, IsSkewH (D c))
    (fun d hq => by
      rw [hforce]
      exact fun c => iterMap_dstate_skew P.ham (P.stepsize / 2) P.hb a.tcur
        a.state d hham hstate hq c)
    P.maxit 0
    ⟨(if P.reinitialize then (fun _ => 0) else a.d), a.Pbuf, a.Bbuf, a.FWbuf, none⟩
    (by
      split_ifs with hr
      · exact fun c => isSkewH_zero
      · exact hd)
  exact h

/-- One step preserves skew-Hermitian-ness of the state, of the carried
buffers and of the warm-started increment, in the forcing-free
configuration with a skew-Hermitian-valued Hamiltonian. -/
theorem stepFn_skew (hforce : P.forcing = none)
    (hham : ∀ (s : St n) (t : Option ℝ),
      IsSkewH ((P.ham.f s t).1) ∧ IsSkewH ((P.ham.f s t).2))
    (hstate : ∀ c, IsSkewH (a.state c))
    (hP : ∀ c, IsSkewH (a.Pbuf c)) (hB : IsSkewH a.Bbuf)
    (hd : ∀ c, IsSkewH (a.d c)) :
    (∀ c, IsSkewH ((stepFn P a).state c)) ∧
    (∀ c, IsSkewH ((stepFn P a).Pbuf c)) ∧ IsSkewH ((stepFn P a).Bbuf) ∧
    (∀ c, IsSkewH ((stepFn P a).d c)) := by
  obtain ⟨hlp, hlb⟩ := stepLoop_skew P a hP hB
  have hp2 : ∀ c, IsSkewH (stepPcs2 P a c) := fun c =>
    isSkewH_real_smul 2 (hlp c)
  have hb2 : IsSkewH (stepBcs2 P a) := isSkewH_real_smul 2 hlb
  refine ⟨?_, hp2, hb2, ?_⟩
  · intro c
    show IsSkewH (stepState P a c)
    unfold stepState
    rw [hforce]
    dsimp only
    split_ifs with hc
    · exact isSkewH_add (isSkewH_add (hstate c) (hp2 c)) hb2
    · exact isSkewH_add (hstate c) (hp2 c)
  · exact stepLoop_d_skew P a hforce hham hstate hd

/-- Invariant over the whole run: for a skew-Hermitian initial state, a
skew-Hermitian-valued Hamiltonian and no forcing, the state, the carried
buffers and the increment stay skew-Hermitian after every step. -/
theorem accAfter_skew (hforce : P.forcing = none)
    (hham : ∀ (s : St n) (t : Option ℝ),
      IsSkewH ((P.ham.f s t).1) ∧ IsSkewH ((P.ham.f s t).2))
    (hs0 : ∀ c, IsSkewH (P.s0 c)) :
    ∀ k, (∀ c, IsSkewH ((accAfter P k).state c)) ∧
      (∀ c, IsSkewH ((accAfter P k).Pbuf c)) ∧ IsSkewH ((accAfter P k).Bbuf) ∧
      (∀ c, IsSkewH ((accAfter P k).d c)) := by
  intro k
  induction k with
  | zero =>
      exact ⟨hs0, fun c => isSkewH_zero, isSkewH_zero, fun c => isSkewH_zero⟩
  | succ k IH =>
      obtain ⟨h1, h2, h3, h4⟩ := IH
      exact stepFn_skew P (accAfter P k) hforce hham h1 h2 h3 h4

/-- With `stepsize = 0`, one step leaves the state unchanged and the
buffers zero. -/
theorem stepFn_zero_stepsize (hz : P.stepsize = 0)
    (hP : a.Pbuf = fun _ => 0) (hB : a.Bbuf = 0) (hF : a.FWbuf = fun _ => 0) :
    (stepFn P a).state = a.state ∧
    (stepFn P a).Pbuf = (fun _ => 0) ∧ (stepFn P a).Bbuf = 0 ∧
    (stepFn P a).FWbuf = (fun _ => 0) := by
  have hhz : P.stepsize / 2 = 0 := by rw [hz]; simp
  have h := innerLoopAux_buf_inv P.ham P.forcing (P.stepsize / 2) P.hb a.tcur
    a.state P.minit (tolUsed P)
    (fun X => X = fun _ => 0) (fun X => X = 0) (fun X => X = fun _ => 0)
    (fun d => by rw [hhz]; exact iterMap_zero_Pcs P.ham P.forcing P.hb a.tcur a.state d)
    (fun d => by rw [hhz]; exact iterMap_zero_Bcs P.ham P.forcing P.hb a.tcur a.state d)
    (fun d => by rw [hhz]; exact iterMap_zero_FW P.ham P.forcing P.hb a.tcur a.state d)
    P.maxit 0
    ⟨(if P.reinitialize then (fun _ => 0) else a.d), a.Pbuf, a.Bbuf, a.FWbuf, none⟩
    hP hB hF
  obtain ⟨hq, hr, hs⟩ := h
  have hp2 : stepPcs2 P a = fun _ => 0 := by
    funext c
    show (2 : ℝ) • (stepLoop P a).1.Pcs c = 0
    rw [show (stepLoop P a).1.Pcs = fun _ => 0 from hq]
    simp
  have hb2 : stepBcs2 P a = 0 := by
    show (2 : ℝ) • (stepLoop P a).1.Bcs = 0
    rw [show (stepLoop P a).1.Bcs = 0 from hr]
    simp
  have hf2 : stepFW2 P a = fun _ => 0 := by
    funext c
    show (2 : ℝ) • (stepLoop P a).1.FW c = 0
    rw [show (stepLoop P a).1.FW = fun _ => 0 from hs]
    simp
  refine ⟨?_, hp2, hb2, ?_⟩
  · funext c
    show stepState P a c = a.state c
    unfold stepState
    dsimp only
    rw [hp2, hb2]
    cases hfc : P.forcing with
    | none =>
        split_ifs with hc <;> simp
    | some F =>
        rw [show stepFW2 P a = fun _ => 0 from hf2]
        split_ifs with hc <;> simp
  · show (match P.forcing with
      | none => (stepLoop P a).1.FW
      | some _ => stepFW2 P a) = fun _ => 0
    cases P.forcing with
    | none => exact hs
    | some F => exact hf2

/-- With `stepsize = 0` the state is unchanged after any number of steps. -/
theorem accAfter_zero_stepsize (hz : P.stepsize = 0) :
    ∀ k, (accAfter P k).state = P.s0 ∧
      (accAfter P k).Pbuf = (fun _ => 0) ∧ (accAfter P k).Bbuf = 0 ∧
      (accAfter P k).FWbuf = (fun _ => 0) := by
  intro k
  induction k with
  | zero => exact ⟨rfl, rfl, rfl, rfl⟩
  | succ k IH =>
      obtain ⟨h1, h2, h3, h4⟩ := IH
      obtain ⟨g1, g2, g3, g4⟩ := stepFn_zero_stepsize P (accAfter P k) hz h2 h3 h4
      exact ⟨g1.trans h1, g2, g3, g4⟩

end StepLemmas

/-! ## Trace and counter characterisations -/

section TraceLemmas

variable {n : ℕ} (P : Params n)

/-- What the callback observes at step `k` (0-indexed): the state after
exactly `k` completed steps, together with the doubled `Pstatecomm`
increment of step `k`, passed strictly before the state update. -/
noncomputable def cbObs (k : ℕ) : St n × St n :=
  ((accAfter P k).state, stepPcs2 P (accAfter P k))

/-- Whether step `k`'s inner loop fired the `for`-`else` branch
("maxit reached" without a break). -/
noncomputable def stepMaxed (k : ℕ) : Bool :=
  (stepLoop P (accAfter P k)).2.2

/-- The number of iterations step `k`'s inner loop executed. -/
noncomputable def stepUsed (k : ℕ) : ℕ :=
  (stepLoop P (accAfter P k)).2.1

theorem accAfter_succ (k : ℕ) : accAfter P (k + 1) = stepFn P (accAfter P k) := rfl

/-- The running time is advanced by the Python-truthy rule after every
step. -/
theorem accAfter_tcur (k : ℕ) :
    (accAfter P (k + 1)).tcur = advTime P.stepsize ((accAfter P k).tcur) := rfl

/-- Once the running time equals `0.0`, `if time:` is falsy and the time
is never advanced again. -/
theorem tcur_frozen_at_zero (h0 : P.time0 = some 0) :
    ∀ k, (accAfter P k).tcur = some 0 := by
  intro k
  induction k with
  | zero => exact h0
  | succ k IH =>
      rw [accAfter_tcur, IH]
      simp [advTime]

/-- The per-step time arguments passed to the Hamiltonian. -/
theorem accAfter_hamTimes :
    ∀ k, (accAfter P k).hamTimes =
      (List.range k).map
        (fun j => halfTimeArg P.ham.usesTime (P.stepsize / 2) ((accAfter P j).tcur)) := by
  intro k
  induction k with
  | zero => rfl
  | succ k IH =>
      rw [List.range_succ, List.map_append]
      show (accAfter P k).hamTimes ++ _ = _
      rw [IH]
      rfl

/-- The callback trace records one pre-update observation per step. -/
theorem accAfter_cbTrace (hcb : P.callbackOn = true) :
    ∀ k, (accAfter P k).cbTrace = (List.range k).map (cbObs P) := by
  intro k
  induction k with
  | zero => rfl
  | succ k IH =>
      rw [List.range_succ, List.map_append]
      show (accAfter P k).cbTrace ++
        (if P.callbackOn then [((accAfter P k).state, stepPcs2 P (accAfter P k))] else [])
        = _
      rw [IH, hcb]
      rfl

/-- The per-step iteration counts. -/
theorem accAfter_iterCounts :
    ∀ k, (accAfter P k).iterCounts = (List.range k).map (stepUsed P) := by
  intro k
  induction k with
  | zero => rfl
  | succ k IH =>
      rw [List.range_succ, List.map_append]
      show (accAfter P k).iterCounts ++ [(stepLoop P (accAfter P k)).2.1] = _
      rw [IH]
      rfl

/-- `number_of_maxit` counts exactly the steps whose inner loop ran out of
fuel without a break. -/
theorem accAfter_maxitCount :
    ∀ k, (accAfter P k).maxitCount = ((List.range k).filter (fun j => stepMaxed P j)).length := by
  intro k
  induction k with
  | zero => rfl
  | succ k IH =>
      rw [List.range_succ, List.filter_append, List.length_append]
      show (accAfter P k).maxitCount + (if (stepLoop P (accAfter P k)).2.2 then 1 else 0) = _
      rw [IH]
      by_cases h : stepMaxed P k
      · rw [show (stepLoop P (accAfter P k)).2.2 = true from h]
        simp [h]
      · rw [show (stepLoop P (accAfter P k)).2.2 = false from by simpa using h]
        simp [h]

/-- `total_iterations` is the sum of the per-step iteration counts. -/
theorem accAfter_totalIters :
    ∀ k, (accAfter P k).totalIters = ((List.range k).map (stepUsed P)).sum := by
  intro k
  induction k with
  | zero => rfl
  | succ k IH =>
      rw [List.range_succ, List.map_append, List.sum_append]
      show (accAfter P k).totalIters + (stepLoop P (accAfter P k)).2.1 = _
      rw [IH]
      rfl

end TraceLemmas

/-! ## Dictionary lemmas -/

section DictLemmas

theorem find?_replace_self (l : List (String × ℝ)) (k : String) (v : ℝ)
    (h : l.any (fun p => p.1 == k) = true) :
    (l.map (fun p => if p.1 == k then (k, v) else p)).find?
      (fun p => p.1 == k) = some (k, v) := by
  induction l with
  | nil => simp at h
  | cons p t IH =>
      by_cases hp : (p.1 == k) = true
      · rw [List.map_cons, if_pos hp]
        exact List.find?_cons_of_pos _ (by simp)
      · rw [List.map_cons, if_neg hp]
        rw [List.find?_cons_of_neg _ (by simpa using hp)]
        refine IH ?_
        rcases List.any_eq_true.mp h with ⟨q, hq, hqk⟩
        rcases List.mem_cons.mp hq with rfl | hq
        · exact absurd hqk (by simpa using hp)
        · exact List.any_eq_true.mpr ⟨q, hq, hqk⟩

theorem find?_replace_ne (l : List (String × ℝ)) (k k' : String) (v : ℝ)
    (hne : k' ≠ k) :
    (l.map (fun p => if p.1 == k then (k, v) else p)).find?
      (fun p => p.1 == k') = l.find? (fun p => p.1 == k') := by
  induction l with
  | nil => rfl
  | cons p t IH =>
      by_cases hp : (p.1 == k) = true
      · have hp1 : p.1 = k := by simpa using hp
        have e1 : ((k : String) == k') = false :=
          beq_eq_false_iff_ne.mpr (fun hc => hne hc.symm)
        have e2 : (p.1 == k') = false := by rw [hp1]; exact e1
        rw [List.map_cons, if_pos hp]
        simp only [List.find?_cons, e1, e2]
        exact IH
      · rw [List.map_cons, if_neg hp]
        by_cases hq : (p.1 == k') = true
        · simp only [List.find?_cons, hq]
        · have hq' : (p.1 == k') = false := by simpa using hq
          simp only [List.find?_cons, hq']
          exact IH

theorem dictGet_dictSet_self (l : List (String × ℝ)) (k : String) (v : ℝ) :
    dictGet (dictSet l k v) k = some v := by
  unfold dictSet dictGet
  split_ifs with h
  · rw [find?_replace_self l k v h]
    rfl
  · have hn : l.find? (fun p => p.1 == k) = none := by
      rw [List.find?_eq_none]
      intro x hx hpx
      exact h (List.any_eq_true.mpr ⟨x, hx, hpx⟩)
    have e1 : (((k, v) : String × ℝ).1 == k) = true := by simp
    rw [List.find?_append, hn, Option.none_or]
    simp only [List.find?_cons, e1]
    rfl

theorem dictGet_dictSet_ne (l : List (String × ℝ)) (k k' : String) (v : ℝ)
    (hne : k' ≠ k) :
    dictGet (dictSet l k v) k' = dictGet l k' := by
  unfold dictSet dictGet
  split_ifs with h
  · rw [find?_replace_ne l k k' v hne]
  · have e1 : (((k, v) : String × ℝ).1 == k') = false := by
      simp only [beq_eq_false_iff_ne]
      exact fun hc => hne hc.symm
    rw [List.find?_append]
    simp only [List.find?_cons, e1, List.find?_nil]
    rcases hf : l.find? (fun p => p.1 == k') with - | q
    · simp
    · simp

theorem dictSet_ne_nil (l : List (String × ℝ)) (k : String) (v : ℝ) :
    dictSet l k v ≠ [] := by
  unfold dictSet
  split_ifs with h
  · intro hc
    rcases l with - | ⟨p, t⟩
    · simp at h
    · simp at hc
  · simp

/-- Resolving the tolerance does not change the truthiness of the stats
dict (a key is only ever added to an already non-empty dict). -/
theorem statsTruthy_stats1 {n : ℕ} (P : Params n) :
    statsTruthy (stats1 P) = statsTruthy P.stats0 := by
  unfold stats1
  split_ifs with h
  · rcases hs : P.stats0 with - | l
    · rfl
    · simp only [Option.map_some, statsTruthy]
      rcases hl : l with - | ⟨p, t⟩
      · rw [hs, hl] at h
        simp [statsTruthy] at h
      · have h1 := dictSet_ne_nil (p :: t) "tol" (tolUsed P)
        simp [List.isEmpty_iff, h1]
  · rfl

end DictLemmas

/-! ## Batched residual grouping -/

/-- The flat maximum over the `(2, B)` array of norms equals the maximum
over the batch of the per-system worst residuals: the worst-case residual
across the batch governs the shared stopping decision. -/
theorem resnormBatched_eq_sysmax {b n : ℕ} (D : BSt b n) :
    resnormBatched D = Finset.univ.fold max 0 (sysResnorm D) := by
  unfold resnormBatched sysResnorm resnormvecB
  refine le_antisymm ?_ ?_
  · refine (Finset.fold_max_le _).mpr
      ⟨(Finset.le_fold_max _).mpr (Or.inl le_rfl), ?_⟩
    intro c _
    refine (Finset.fold_max_le _).mpr
      ⟨(Finset.le_fold_max _).mpr (Or.inl le_rfl), ?_⟩
    intro k _
    refine (Finset.le_fold_max _).mpr (Or.inr ⟨k, Finset.mem_univ k, ?_⟩)
    fin_cases c
    · exact le_max_left _ _
    · exact le_max_right _ _
  · refine (Finset.fold_max_le _).mpr
      ⟨(Finset.le_fold_max _).mpr (Or.inl le_rfl), ?_⟩
    intro k _
    refine max_le ?_ ?_
    · exact (Finset.le_fold_max _).mpr (Or.inr ⟨0, Finset.mem_univ _,
        (Finset.le_fold_max _).mpr (Or.inr ⟨k, Finset.mem_univ _, le_rfl⟩)⟩)
    · exact (Finset.le_fold_max _).mpr (Or.inr ⟨1, Finset.mem_univ _,
        (Finset.le_fold_max _).mpr (Or.inr ⟨k, Finset.mem_univ _, le_rfl⟩)⟩)

/-! ## Step-level bridges for the inner loop -/

section StepBridges

variable {n : ℕ} (P : Params n) (a : Acc n)

/-- The inner loop of a step executes at most `maxit` iterations. -/
theorem stepLoop_used_le : (stepLoop P a).2.1 ≤ P.maxit :=
  innerLoopAux_used_le P.ham P.forcing (P.stepsize / 2) P.hb a.tcur a.state
    P.minit (tolUsed P) P.maxit 0 _

/-- The inner loop of a step executes at least `minit` iterations. -/
theorem stepLoop_used_ge (h2 : P.minit ≤ P.maxit) :
    P.minit ≤ (stepLoop P a).2.1 := by
  have h := innerLoopAux_used_ge P.ham P.forcing (P.stepsize / 2) P.hb a.tcur
    a.state P.minit (tolUsed P) P.maxit 0
    ⟨(if P.reinitialize then (fun _ => 0) else a.d), a.Pbuf, a.Bbuf, a.FWbuf, none⟩
  have h' : min P.maxit (P.minit - 0) ≤ (stepLoop P a).2.1 := h
  omega

/-- When a step's loop fires the `for`-`else` branch ("maxit reached"), it
used exactly `maxit` iterations and no iteration in the step satisfied the
stop condition. -/
theorem stepLoop_maxed_used (h1 : 1 ≤ P.minit) :
    (stepLoop P a).2.2 = true → (stepLoop P a).2.1 = P.maxit := by
  intro hmx
  rcases h : stepLoop P a with ⟨ls', u, mx⟩
  have heq : innerLoopAux P.ham P.forcing (P.stepsize / 2) P.hb a.tcur a.state
      P.minit (tolUsed P) P.maxit 0
      ⟨(if P.reinitialize then (fun _ => 0) else a.d), a.Pbuf, a.Bbuf, a.FWbuf,
        none⟩ = (ls', u, mx) := h
  have hspec := innerLoopAux_spec P.ham P.forcing (P.stepsize / 2) P.hb a.tcur
    a.state P.minit (tolUsed P)
    (if P.reinitialize then (fun _ => 0) else a.d) P.maxit 0 _ rfl
    (by
      show (none : Option ℝ) = resOldAt P.ham P.forcing (P.stepsize / 2) P.hb
        a.tcur a.state P.minit
        (if P.reinitialize then (fun _ => 0) else a.d) 0
      unfold resOldAt
      rw [if_neg (by omega)])
    ls' u mx heq
  obtain ⟨-, -, -, hmax, -, -⟩ := hspec
  rw [h] at hmx
  exact (hmax hmx).1

end StepBridges

/-! ## Concrete inputs for witnesses and counterexamples -/

/-- A trivial Hamiltonian returning zero operators. -/
noncomputable def zeroHam : HamOp 1 := ⟨fun _ _ => (0, 0), false⟩

/-- A baseline argument record: zero 1×1 state, unit step, one step, the
zero Hamiltonian, no time, no forcing, no stats, no callback, numeric
tolerance `1`, `maxit = minit = 1`. -/
noncomputable def Pbase : Params 1 :=
  { s0 := fun _ => 0
    stepsize := 1
    steps := 1
    ham := zeroHam
    time0 := none
    forcing := none
    stats0 := none
    callbackOn := false
    tolArg := some 1
    maxit := 1
    minit := 1
    verbatim := false
    reinitialize := false
    eps := 1
    hb := 1 }

/-- The all-ones 1×1 matrix. -/
noncomputable def oneM : Mat 1 := fun _ _ => 1

/-- The 1×1 matrix with single entry `i` (skew-Hermitian). -/
noncomputable def iM : Mat 1 := fun _ _ => Complex.I

theorem linfNorm_oneM : linfNorm oneM = 1 := by
  unfold linfNorm rowSumAbs oneM
  rw [show (Finset.univ : Finset (Fin 1)) = {0} by decide]
  have h1 : Complex.abs 1 = 1 := by simp
  rw [Finset.fold_singleton, Finset.sum_singleton, h1]
  exact sup_eq_left.mpr zero_le_one

theorem linfNorm_iM : linfNorm iM = 1 := by
  unfold linfNorm rowSumAbs iM
  rw [show (Finset.univ : Finset (Fin 1)) = {0} by decide]
  rw [Finset.fold_singleton, Finset.sum_singleton, Complex.abs_I]
  exact sup_eq_left.mpr zero_le_one

/-! ## Claims -/

/-- C1: for every skew-Hermitian initial state (both `W = state[0]` and
`Theta = state[1]` satisfy `X = -X†`) and every number of steps, assuming
the Hamiltonian evaluator returns skew-Hermitian `(P, B)` (and no forcing
is supplied, matching the claim's enumeration of the update terms), the
state after the run has both `W` and `Theta` still skew-Hermitian: every
term added to the state is an anti-self-adjoint combination. -/
theorem claim1_skew_hermitian_preserved {n : ℕ} (P : Params n)
    (hW : IsSkewH (P.s0 0)) (hT : IsSkewH (P.s0 1))
    (hham : ∀ (s : St n) (t : Option ℝ),
      IsSkewH ((P.ham.f s t).1) ∧ IsSkewH ((P.ham.f s t).2))
    (hforce : P.forcing = none) :
    (IsSkewH ((magmpRun P).state 0) ∧ IsSkewH ((magmpRun P).state 1)) ∧
    (∀ k c, IsSkewH (stepPcs2 P (accAfter P k) c)) ∧
    (∀ k, IsSkewH (stepBcs2 P (accAfter P k))) ∧
    (∀ k c, IsSkewH ((accAfter P k).d c)) := by
  have hs0 : ∀ c, IsSkewH (P.s0 c) := by
    intro c
    fin_cases c
    · exact hW
    · exact hT
  have h := fun k => accAfter_skew P hforce hham hs0 k
  refine ⟨⟨(h P.steps).1 0, (h P.steps).1 1⟩, ?_, ?_, fun k => (h k).2.2.2⟩
  · intro k c
    have hl := stepLoop_skew P (accAfter P k) (h k).2.1 (h k).2.2.1
    exact isSkewH_real_smul 2 (hl.1 c)
  · intro k
    have hl := stepLoop_skew P (accAfter P k) (h k).2.1 (h k).2.2.1
    exact isSkewH_real_smul 2 hl.2

/-- Witness for C1 at a concrete input: the zero state is skew-Hermitian,
the zero Hamiltonian returns skew-Hermitian pairs, and the returned state
components are skew-Hermitian. -/
theorem claim1_witness :
    IsSkewH (Pbase.s0 0) ∧ IsSkewH (Pbase.s0 1) ∧
    (∀ (s : St 1) (t : Option ℝ),
      IsSkewH ((Pbase.ham.f s t).1) ∧ IsSkewH ((Pbase.ham.f s t).2)) ∧
    Pbase.forcing = none ∧
    (IsSkewH ((magmpRun Pbase).state 0) ∧ IsSkewH ((magmpRun Pbase).state 1)) :=
  ⟨isSkewH_zero, isSkewH_zero, fun _ _ => ⟨isSkewH_zero, isSkewH_zero⟩, rfl,
    (claim1_skew_hermitian_preserved Pbase isSkewH_zero isSkewH_zero
      (fun _ _ => ⟨isSkewH_zero, isSkewH_zero⟩) rfl).1⟩

/-- C5: under the preconditions `minit ≥ 1` and `maxit ≥ minit`, every
outer step's inner loop executes at most `maxit` and at least `minit`
iterations. -/
theorem claim5_iteration_bounds {n : ℕ} (P : Params n)
    (h1 : 1 ≤ P.minit) (h2 : P.minit ≤ P.maxit) :
    ∀ u ∈ (magmpRun P).iterCounts, P.minit ≤ u ∧ u ≤ P.maxit := by
  intro u hu
  unfold magmpRun at hu
  rw [accAfter_iterCounts] at hu
  rcases List.mem_map.mp hu with ⟨j, -, rfl⟩
  exact ⟨stepLoop_used_ge P (accAfter P j) h2, stepLoop_used_le P (accAfter P j)⟩

/-- Witness for C5 at a concrete input. -/
theorem claim5_witness :
    1 ≤ Pbase.minit ∧ Pbase.minit ≤ Pbase.maxit ∧
    (∀ u ∈ (magmpRun Pbase).iterCounts, Pbase.minit ≤ u ∧ u ≤ Pbase.maxit) :=
  ⟨le_rfl, le_rfl, claim5_iteration_bounds Pbase le_rfl le_rfl⟩

/-- C7: when a callback is supplied it is invoked exactly once per step
(the trace has one entry per step), each invocation receives the pre-update
state together with the doubled primary `P`-commutator increment, and the
`k`-th invocation (0-indexed) observes exactly the state after `k`
completed steps. -/
theorem claim7_callback_timing {n : ℕ} (P : Params n)
    (hcb : P.callbackOn = true) :
    (magmpRun P).cbTrace.length = P.steps ∧
    ∀ k, k < P.steps →
      (magmpRun P).cbTrace.get? k =
        some ((accAfter P k).state, stepPcs2 P (accAfter P k)) := by
  have h := accAfter_cbTrace P hcb P.steps
  unfold magmpRun
  constructor
  · rw [h]
    simp
  · intro k hk
    rw [h, List.get?_map, List.get?_range hk]
    rfl

/-- Witness for C7 at a concrete input with the callback enabled. -/
noncomputable def Pcb : Params 1 := { Pbase with callbackOn := true }

theorem claim7_witness :
    Pcb.callbackOn = true ∧
    (magmpRun Pcb).cbTrace.length = Pcb.steps ∧
    (∀ k, k < Pcb.steps →
      (magmpRun Pcb).cbTrace.get? k =
        some ((accAfter Pcb k).state, stepPcs2 Pcb (accAfter Pcb k))) :=
  ⟨rfl, (claim7_callback_timing Pcb rfl).1, (claim7_callback_timing Pcb rfl).2⟩

/-- C9: with `stepsize = 0` every half-step operator is scaled to zero, so
every increment applied to the state is the zero matrix and the state is
unchanged after any number of steps. -/
theorem claim9_zero_stepsize {n : ℕ} (P : Params n) (hz : P.stepsize = 0) :
    (magmpRun P).state = P.s0 :=
  (accAfter_zero_stepsize P hz P.steps).1

noncomputable def P9 : Params 1 := { Pbase with stepsize := 0 }

/-- Witness for C9 at a concrete input. -/
theorem claim9_witness : P9.stepsize = 0 ∧ (magmpRun P9).state = P9.s0 :=
  ⟨rfl, claim9_zero_stepsize P9 rfl⟩

theorem getKey_some (l : List (String × ℝ)) (k : String) :
    getKey (some l) k = dictGet l k := rfl

/-- An increment difference whose `W` component vanishes while its `Theta`
component does not. -/
noncomputable def Dex : St 1 := fun c => if c = 0 then 0 else oneM

/-- C2 counterexample: the claim says the residual is the batched infinity
norm over the *whole* increment, but in the unbatched case the code takes
`resnormvec[0]`, the norm of the `W` component only: at `Dex` the code's
residual is `0` while the whole-increment norm is `1`. -/
theorem claim2_counterexample :
    resnormUnbatched Dex = 0 ∧ resnormSpecWhole Dex = 1 ∧
    resnormUnbatched Dex ≠ resnormSpecWhole Dex := by
  have h0 : Dex 0 = 0 := by unfold Dex; rw [if_pos rfl]
  have h1 : Dex 1 = oneM := by unfold Dex; rw [if_neg (by decide)]
  have ha : resnormUnbatched Dex = 0 := by
    unfold resnormUnbatched resnormvecU
    rw [h0, linfNorm_zero]
  have hb : resnormSpecWhole Dex = 1 := by
    unfold resnormSpecWhole
    rw [h0, h1, linfNorm_zero, linfNorm_oneM]
    norm_num
  exact ⟨ha, hb, by rw [ha, hb]; norm_num⟩

/-- C2 (amended): once at least `minit` iterations have run, the residual
is the infinity norm of the `W` component (component 0) of
(previous increment − current increment) — the whole increment only enters
in the batched case — and the loop stops early exactly when the first
iteration `j` satisfies `residual ≤ tol` or `residual ≥ previous residual`;
in the batched case the flat maximum the code takes equals the maximum over
the batch of per-system worst residuals, so the worst system governs the
shared stop. -/
theorem claim2_amended {n : ℕ} (P : Params n) (tc : Option ℝ) (st d0 : St n)
    (h1 : 1 ≤ P.minit) :
    (∀ ls0 : LoopSt n, ls0.d = d0 → ls0.res = none →
      ∀ ls' u mx,
        innerLoopAux P.ham P.forcing (P.stepsize / 2) P.hb tc st P.minit
          (tolUsed P) P.maxit 0 ls0 = (ls', u, mx) →
        ((mx = false ↔ ∃ j, j < P.maxit ∧
            stopCond P.ham P.forcing (P.stepsize / 2) P.hb tc st P.minit
              (tolUsed P) d0 j) ∧
         (mx = false →
            stopCond P.ham P.forcing (P.stepsize / 2) P.hb tc st P.minit
              (tolUsed P) d0 (u - 1) ∧
            ∀ j, j < u - 1 →
              ¬ stopCond P.ham P.forcing (P.stepsize / 2) P.hb tc st P.minit
                (tolUsed P) d0 j))) ∧
    (∀ D : St n, resnormUnbatched D = linfNorm (D 0)) ∧
    (∀ (b : ℕ) (D : BSt b n),
      resnormBatched D = Finset.univ.fold max 0 (sysResnorm D)) := by
  refine ⟨?_, fun D => rfl, fun b D => resnormBatched_eq_sysmax D⟩
  intro ls0 hd0 hres0 ls' u mx heq
  have hspec := innerLoopAux_spec P.ham P.forcing (P.stepsize / 2) P.hb tc st
    P.minit (tolUsed P) d0 P.maxit 0 ls0
    (by rw [hd0]; rfl)
    (by
      rw [hres0]
      unfold resOldAt
      rw [if_neg (by omega)])
    ls' u mx heq
  obtain ⟨-, -, hle, hmx, hbr, -⟩ := hspec
  constructor
  · constructor
    · intro hf
      obtain ⟨hu1, hsc, -⟩ := hbr hf
      exact ⟨0 + u - 1, by omega, hsc⟩
    · intro hex
      rcases hex with ⟨j, hj, hsc⟩
      cases mx with
      | false => rfl
      | true =>
          obtain ⟨-, hall⟩ := hmx rfl
          exact absurd hsc (hall j (by omega) (by omega))
  · intro hf
    obtain ⟨hu1, hsc, hall⟩ := hbr hf
    constructor
    · have hz : 0 + u - 1 = u - 1 := by omega
      rw [hz] at hsc
      exact hsc
    · intro j hj
      exact hall j (by omega) (by omega)

/-- Witness for C2 (amended) at a concrete input. -/
theorem claim2_witness :
    1 ≤ Pbase.minit ∧
    ((∀ ls0 : LoopSt 1, ls0.d = (fun _ => 0) → ls0.res = none →
      ∀ ls' u mx,
        innerLoopAux Pbase.ham Pbase.forcing (Pbase.stepsize / 2) Pbase.hb none
          (fun _ => 0) Pbase.minit (tolUsed Pbase) Pbase.maxit 0 ls0
          = (ls', u, mx) →
        ((mx = false ↔ ∃ j, j < Pbase.maxit ∧
            stopCond Pbase.ham Pbase.forcing (Pbase.stepsize / 2) Pbase.hb none
              (fun _ => 0) Pbase.minit (tolUsed Pbase) (fun _ => 0) j) ∧
         (mx = false →
            stopCond Pbase.ham Pbase.forcing (Pbase.stepsize / 2) Pbase.hb none
              (fun _ => 0) Pbase.minit (tolUsed Pbase) (fun _ => 0) (u - 1) ∧
            ∀ j, j < u - 1 →
              ¬ stopCond Pbase.ham Pbase.forcing (Pbase.stepsize / 2) Pbase.hb
                none (fun _ => 0) Pbase.minit (tolUsed Pbase) (fun _ => 0) j))) ∧
    (∀ D : St 1, resnormUnbatched D = linfNorm (D 0)) ∧
    (∀ (b : ℕ) (D : BSt b 1),
      resnormBatched D = Finset.univ.fold max 0 (sysResnorm D))) :=
  ⟨le_rfl, claim2_amended Pbase none (fun _ => 0) (fun _ => 0) le_rfl⟩

/-- An initial state whose `W` component vanishes while its `Theta`
component has norm `1`. -/
noncomputable def sEx : St 1 := fun c => if c = 0 then 0 else iM

/-- C3 counterexample: the claim says the auto tolerance uses the infinity
norm of the initial state (representative system at batch index 0), but
`state[zeroind]` selects component 0 only, i.e. the `W` matrix: at `sEx`
(with `eps = 1`, `stepsize = 1`) the code resolves the tolerance to `0`
while the claim's whole-state value is `1`. -/
theorem claim3_counterexample :
    tolResolve 1 1 sEx = 0 ∧ tolSpecWhole 1 1 sEx = 1 ∧
    tolResolve 1 1 sEx ≠ tolSpecWhole 1 1 sEx := by
  have h0 : sEx 0 = 0 := by unfold sEx; rw [if_pos rfl]
  have h1 : sEx 1 = iM := by unfold sEx; rw [if_neg (by decide)]
  have ha : tolResolve 1 1 sEx = 0 := by
    unfold tolResolve
    rw [h0, linfNorm_zero, mul_zero]
  have hb : tolSpecWhole 1 1 sEx = 1 := by
    unfold tolSpecWhole
    rw [h0, h1, linfNorm_zero, linfNorm_iM, Real.sqrt_one]
    norm_num
  exact ⟨ha, hb, by rw [ha, hb]; norm_num⟩

/-- C3 (amended): when `tol` is `'auto'` or negative, the resolved
tolerance equals `sqrt(machine_eps) * stepsize * ||W0||_∞` — the infinity
norm of the `W` component (component 0, batch index 0) of the initial
state — and it is written under the key `"tol"` into the statistics record
when a *non-empty* stats dict is supplied (both into the record as left
after resolution and into the final record). -/
theorem claim3_amended {n : ℕ} (P : Params n) (hauto : tolIsAuto P) :
    tolUsed P = Real.sqrt P.eps * P.stepsize * linfNorm (P.s0 0) ∧
    (statsTruthy P.stats0 = true →
      getKey (stats1 P) "tol" = some (tolUsed P) ∧
      getKey (statsOut P) "tol" = some (tolUsed P)) := by
  have h1 : tolUsed P = tolResolve P.eps P.stepsize P.s0 := by
    unfold tolUsed
    rcases htol : P.tolArg with - | t
    · rfl
    · show (if t < 0 then tolResolve P.eps P.stepsize P.s0 else t)
        = tolResolve P.eps P.stepsize P.s0
      unfold tolIsAuto at hauto
      rw [htol] at hauto
      rw [if_pos (show t < 0 from hauto)]
  refine ⟨by rw [h1]; rfl, ?_⟩
  intro htr
  have hc : tolIsAuto P ∧ statsTruthy P.stats0 = true := ⟨hauto, htr⟩
  have hs0 : ∃ l0, P.stats0 = some l0 := by
    rcases h : P.stats0 with - | l0
    · rw [h] at htr
      simp [statsTruthy] at htr
    · exact ⟨l0, rfl⟩
  rcases hs0 with ⟨l0, hl0⟩
  have hst1 : stats1 P = some (dictSet l0 "tol" (tolUsed P)) := by
    unfold stats1
    rw [if_pos hc, hl0]
    rfl
  constructor
  · rw [hst1, getKey_some]
    exact dictGet_dictSet_self _ _ _
  · have htr1 : statsTruthy (stats1 P) = true := by
      rw [statsTruthy_stats1]
      exact htr
    unfold statsOut
    rw [if_pos htr1, hst1]
    rw [show (some (dictSet l0 "tol" (tolUsed P))).map (fun l =>
        dictSet (dictSet l "iterations" (((magmpRun P).totalIters : ℝ) / P.steps))
          "maxit" (((magmpRun P).maxitCount : ℝ) / P.steps))
      = some (dictSet (dictSet (dictSet l0 "tol" (tolUsed P)) "iterations"
          (((magmpRun P).totalIters : ℝ) / P.steps))
          "maxit" (((magmpRun P).maxitCount : ℝ) / P.steps)) from rfl]
    rw [getKey_some]
    rw [dictGet_dictSet_ne _ _ _ _ (by decide),
      dictGet_dictSet_ne _ _ _ _ (by decide)]
    exact dictGet_dictSet_self _ _ _

/-- Witness for C3 (amended) at a concrete input with `tol='auto'` and a
non-empty stats dict. -/
noncomputable def P3w : Params 1 :=
  { Pbase with tolArg := none, stats0 := some [("x", 0)] }

theorem claim3_witness :
    tolIsAuto P3w ∧ statsTruthy P3w.stats0 = true ∧
    (tolUsed P3w = Real.sqrt P3w.eps * P3w.stepsize * linfNorm (P3w.s0 0) ∧
      getKey (stats1 P3w) "tol" = some (tolUsed P3w) ∧
      getKey (statsOut P3w) "tol" = some (tolUsed P3w)) :=
  ⟨trivial, rfl,
    ⟨(claim3_amended P3w trivial).1,
      ((claim3_amended P3w trivial).2 rfl).1,
      ((claim3_amended P3w trivial).2 rfl).2⟩⟩

/-- The baseline arguments with an *empty* caller-supplied stats dict. -/
noncomputable def P8c : Params 1 := { Pbase with stats0 := some [] }

/-- C8 counterexample: with an empty (but supplied) stats dict, `if stats:`
is falsy, so the call succeeds without writing *any* of the three keys —
the returned stats dict is still the empty one. -/
theorem claim8_counterexample :
    magmp_fixedpoint P8c = .ok ((magmpRun P8c).state, some []) ∧
    getKey (statsOut P8c) "iterations" = none ∧
    getKey (statsOut P8c) "maxit" = none ∧
    getKey (statsOut P8c) "tol" = none := by
  have hs1 : stats1 P8c = some [] := by
    unfold stats1
    rw [if_neg ?hc]
    · rfl
    case hc =>
      rintro ⟨-, htr⟩
      rw [show P8c.stats0 = some [] from rfl] at htr
      simp [statsTruthy] at htr
  have htr1 : statsTruthy (stats1 P8c) = false := by
    rw [hs1]
    rfl
  have hout : statsOut P8c = some [] := by
    unfold statsOut
    rw [if_neg (by rw [htr1]; simp), hs1]
  refine ⟨?_, ?_, ?_, ?_⟩
  · unfold magmp_fixedpoint
    rw [if_neg (by simp [P8c, Pbase]), if_neg ?h2, hout]
    case h2 =>
      rintro ⟨hsteps, -⟩
      simp [P8c, Pbase] at hsteps
  · rw [hout]
    rfl
  · rw [hout]
    rfl
  · rw [hout]
    rfl

/-- C8 (amended): whenever a *non-empty* stats mapping is supplied (and the
run completes, i.e. `steps ≠ 0` and the argument asserts pass), the final
record contains the average inner iterations per step under
`"iterations"`, the fraction of steps that exhausted `maxit` under
`"maxit"`, and additionally the resolved tolerance under `"tol"` when the
tolerance was auto-resolved. -/
theorem claim8_stats_keys {n : ℕ} (P : Params n) (l0 : List (String × ℝ))
    (hs : P.stats0 = some l0) (hne : l0 ≠ []) (hsteps : P.steps ≠ 0)
    (h1 : 1 ≤ P.minit) (h2 : P.minit ≤ P.maxit) :
    magmp_fixedpoint P = .ok ((magmpRun P).state, statsOut P) ∧
    getKey (statsOut P) "iterations"
      = some (((magmpRun P).totalIters : ℝ) / P.steps) ∧
    getKey (statsOut P) "maxit"
      = some (((magmpRun P).maxitCount : ℝ) / P.steps) ∧
    (tolIsAuto P → getKey (statsOut P) "tol" = some (tolUsed P)) := by
  have htr : statsTruthy P.stats0 = true := by
    rw [hs]
    simpa [statsTruthy, List.isEmpty_iff] using hne
  have htr1 : statsTruthy (stats1 P) = true := by
    rw [statsTruthy_stats1]
    exact htr
  have hex : ∃ l1, stats1 P = some l1 ∧
      (tolIsAuto P → dictGet l1 "tol" = some (tolUsed P)) := by
    unfold stats1
    split_ifs with hc
    · refine ⟨dictSet l0 "tol" (tolUsed P), by rw [hs]; rfl, ?_⟩
      intro _
      exact dictGet_dictSet_self _ _ _
    · refine ⟨l0, by rw [hs], ?_⟩
      intro hauto
      exact absurd ⟨hauto, htr⟩ hc
  rcases hex with ⟨l1, hl1, htolkey⟩
  have hout : statsOut P = some
      (dictSet (dictSet l1 "iterations" (((magmpRun P).totalIters : ℝ) / P.steps))
        "maxit" (((magmpRun P).maxitCount : ℝ) / P.steps)) := by
    unfold statsOut
    rw [if_pos htr1, hl1]
    rfl
  refine ⟨?_, ?_, ?_, ?_⟩
  · unfold magmp_fixedpoint
    rw [if_neg (by omega), if_neg ?hz]
    case hz =>
      rintro ⟨h0, -⟩
      exact hsteps h0
  · rw [hout, getKey_some]
    rw [dictGet_dictSet_ne _ _ _ _ (by decide)]
    exact dictGet_dictSet_self _ _ _
  · rw [hout, getKey_some]
    exact dictGet_dictSet_self _ _ _
  · intro hauto
    rw [hout, getKey_some]
    rw [dictGet_dictSet_ne _ _ _ _ (by decide),
      dictGet_dictSet_ne _ _ _ _ (by decide)]
    exact htolkey hauto

/-- Witness for C8 (amended) at a concrete input with a non-empty stats
dict. -/
noncomputable def P8w : Params 1 := { Pbase with stats0 := some [("x", 0)] }

theorem claim8_witness :
    P8w.stats0 = some [("x", 0)] ∧ ([(("x" : String), (0 : ℝ))] ≠ []) ∧
    P8w.steps ≠ 0 ∧ 1 ≤ P8w.minit ∧ P8w.minit ≤ P8w.maxit ∧
    (magmp_fixedpoint P8w = .ok ((magmpRun P8w).state, statsOut P8w) ∧
      getKey (statsOut P8w) "iterations"
        = some (((magmpRun P8w).totalIters : ℝ) / P8w.steps) ∧
      getKey (statsOut P8w) "maxit"
        = some (((magmpRun P8w).maxitCount : ℝ) / P8w.steps)) := by
  have h := claim8_stats_keys P8w [("x", 0)] rfl (by simp) (by simp [P8w, Pbase])
    le_rfl le_rfl
  exact ⟨rfl, by simp, by simp [P8w, Pbase], le_rfl, le_rfl, h.1, h.2.1, h.2.2.1⟩

/-- C6: exhausting `maxit` without satisfying a stopping condition is not
an error: the call still returns `.ok` with the state advanced through all
steps, the per-step event is counted (`number_of_maxit` equals the number
of steps whose loop ran out of fuel without a break, and each such step
used exactly `maxit` iterations yet still performed its state update), and
the fraction is written to the statistics under `"maxit"` when a truthy
stats dict is supplied. -/
theorem claim6_maxit_not_fatal {n : ℕ} (P : Params n)
    (h1 : 1 ≤ P.minit) (h2 : P.minit ≤ P.maxit) (hsteps : P.steps ≠ 0) :
    magmp_fixedpoint P = .ok ((magmpRun P).state, statsOut P) ∧
    (magmpRun P).maxitCount
      = ((List.range P.steps).filter (fun j => stepMaxed P j)).length ∧
    (∀ k, stepMaxed P k = true →
      stepUsed P k = P.maxit ∧
      (accAfter P (k + 1)).state = stepState P (accAfter P k)) ∧
    (statsTruthy (stats1 P) = true →
      getKey (statsOut P) "maxit"
        = some (((magmpRun P).maxitCount : ℝ) / P.steps)) := by
  refine ⟨?_, ?_, ?_, ?_⟩
  · unfold magmp_fixedpoint
    rw [if_neg (by omega), if_neg ?hz]
    case hz =>
      rintro ⟨h0, -⟩
      exact hsteps h0
  · unfold magmpRun
    exact accAfter_maxitCount P P.steps
  · intro k hk
    exact ⟨stepLoop_maxed_used P (accAfter P k) h1 hk, rfl⟩
  · intro htr1
    have hex : ∃ l1, stats1 P = some l1 := by
      rcases h : stats1 P with - | l1
      · rw [h] at htr1
        simp [statsTruthy] at htr1
      · exact ⟨l1, rfl⟩
    rcases hex with ⟨l1, hl1⟩
    have hout : statsOut P = some
        (dictSet (dictSet l1 "iterations" (((magmpRun P).totalIters : ℝ) / P.steps))
          "maxit" (((magmpRun P).maxitCount : ℝ) / P.steps)) := by
      unfold statsOut
      rw [if_pos htr1, hl1]
      rfl
    rw [hout, getKey_some]
    exact dictGet_dictSet_self _ _ _

/-- Witness for C6 at a concrete input. -/
theorem claim6_witness :
    1 ≤ Pbase.minit ∧ Pbase.minit ≤ Pbase.maxit ∧ Pbase.steps ≠ 0 ∧
    (magmp_fixedpoint Pbase = .ok ((magmpRun Pbase).state, statsOut Pbase) ∧
      (magmpRun Pbase).maxitCount
        = ((List.range Pbase.steps).filter (fun j => stepMaxed Pbase j)).length ∧
      (∀ k, stepMaxed Pbase k = true →
        stepUsed Pbase k = Pbase.maxit ∧
        (accAfter Pbase (k + 1)).state = stepState Pbase (accAfter Pbase k))) := by
  have h := claim6_maxit_not_fatal Pbase le_rfl le_rfl (by simp [Pbase])
  exact ⟨le_rfl, le_rfl, by simp [Pbase], h.1, h.2.1, h.2.2.1⟩

/-- C10: with `steps = 0` and either `verbatim` set or a truthy (non-empty)
stats dict supplied, the final statistics computation divides by `steps`
and the call raises `ZeroDivisionError` instead of returning; with
`steps = 0` and neither option, the unchanged state is returned (with the
stats argument untouched). -/
theorem claim10_zero_steps {n : ℕ} (P : Params n)
    (h1 : 1 ≤ P.minit) (h2 : P.minit ≤ P.maxit) (h0 : P.steps = 0) :
    ((P.verbatim = true ∨ statsTruthy P.stats0 = true) →
      magmp_fixedpoint P = .error .zeroDivisionError) ∧
    (P.verbatim = false → statsTruthy P.stats0 = false →
      magmp_fixedpoint P = .ok (P.s0, P.stats0)) := by
  constructor
  · intro hor
    unfold magmp_fixedpoint
    rw [if_neg (by omega), if_pos ?hp]
    case hp =>
      refine ⟨h0, ?_⟩
      rcases hor with hv | ht
      · exact Or.inl hv
      · refine Or.inr ?_
        rw [statsTruthy_stats1]
        exact ht
  · intro hv ht
    have htr1 : statsTruthy (stats1 P) = false := by
      rw [statsTruthy_stats1]
      exact ht
    have hs1 : stats1 P = P.stats0 := by
      unfold stats1
      rw [if_neg ?hn]
      case hn =>
        rintro ⟨-, htt⟩
        rw [ht] at htt
        exact Bool.false_ne_true htt
    have hout : statsOut P = P.stats0 := by
      unfold statsOut
      rw [if_neg (by rw [htr1]; simp), hs1]
    have hstate : (magmpRun P).state = P.s0 := by
      unfold magmpRun
      rw [h0]
      rfl
    unfold magmp_fixedpoint
    rw [if_neg (by omega), if_neg ?hz, hstate, hout]
    case hz =>
      rintro ⟨-, hor⟩
      rcases hor with hvv | htt
      · rw [hv] at hvv
        exact Bool.false_ne_true hvv
      · rw [htr1] at htt
        exact Bool.false_ne_true htt

/-- Arguments with `steps = 0` and `verbatim` on (error case of C10). -/
noncomputable def P10e : Params 1 := { Pbase with steps := 0, verbatim := true }

/-- Arguments with `steps = 0` and neither option (success case of C10). -/
noncomputable def P10s : Params 1 := { Pbase with steps := 0 }

/-- A time-dependent run started at `time = 0.0`: two steps of size `1`
with a Hamiltonian that declares a `time` argument. -/
noncomputable def P4 : Params 1 :=
  { Pbase with ham := ⟨fun _ _ => (0, 0), true⟩, time0 := some 0, steps := 2 }

/-- C4 (code bug): with a supplied time of `0.0`, `if time:` is falsy, so
the internal time is never advanced; both steps evaluate the Hamiltonian at
`0 + stepsize/2 = 1/2`, whereas the claim (and the docstring's
`time: float or None` contract together with the midpoint scheme) requires
the second step (k = 1) to be evaluated at
`initial_time + 1*stepsize + stepsize/2 = 3/2`. -/
theorem claim4_time_frozen_at_zero :
    (magmpRun P4).hamTimes = [some (1 / 2 : ℝ), some (1 / 2 : ℝ)] ∧
    (1 / 2 : ℝ) ≠ 0 + 1 * P4.stepsize + P4.stepsize / 2 := by
  constructor
  · have ht : ∀ j, (accAfter P4 j).tcur = some 0 :=
      tcur_frozen_at_zero P4 rfl
    show (accAfter P4 P4.steps).hamTimes = _
    rw [show P4.steps = 2 from rfl, accAfter_hamTimes P4 2]
    rw [show List.range 2 = [0, 1] from rfl]
    rw [List.map_cons, List.map_cons, List.map_nil]
    rw [ht 0, ht 1]
    unfold halfTimeArg
    rw [if_pos (show P4.ham.usesTime = true from rfl)]
    rw [show P4.stepsize = (1 : ℝ) from rfl]
    norm_num
  · rw [show P4.stepsize = (1 : ℝ) from rfl]
    norm_num

/-- Witness for C10 at concrete inputs: the error case with `verbatim` on,
and the success case for the baseline arguments with `steps = 0`. -/
theorem claim10_witness :
    1 ≤ P10e.minit ∧ P10e.minit ≤ P10e.maxit ∧ P10e.steps = 0 ∧
    magmp_fixedpoint P10e = .error .zeroDivisionError ∧
    magmp_fixedpoint P10s = .ok (P10s.s0, P10s.stats0) :=
  ⟨le_rfl, le_rfl, rfl,
    (claim10_zero_steps P10e le_rfl le_rfl rfl).1 (Or.inl rfl),
    (claim10_zero_steps P10s le_rfl le_rfl rfl).2 rfl rfl⟩

end QuflowMhd
